import Mathlib

/-!
Verification of the `bip.hexrays.cnode` module (file `src/bip/hexrays/cnode.py`).

The development shallowly embeds the parts of the module the claims are
about:

* the `CNode` wrapper object (constructor, `has_parent`, `parent`, `cfunc`,
  `closest_ea`),
* the DFS visitor wrappers (`visit_cnode`, `get_cnode_filter`),
* the `ignore_cast` helper (default implementation and the
  `CNodeExprCast` override),
* the `CNode.GetCNode` subclass-walking dispatch,
* the `buildCNode` / `addCNodeMethod` dynamic class synthesis machinery.

Python exceptions are embedded with `Except PyError`; Python `dict`s are
embedded as insertion-ordered association lists; class objects are embedded
as records addressed by identity (a `Nat` id), matching Python's identity
semantics for class objects used as `dict` keys.

A `CNode` object stores its `citem_t` handle, its `HxCFunc` handle and a
reference to its parent node (or `None`).  Since the parent links form a
finite linear chain, the embedding represents a node as its own two handles
together with the list of `(citem, hxcfunc)` frames of its ancestors, from
the parent up to the root; the parent reference is recovered by
`CNode.parentField`.  This keeps every definition structurally recursive
and executable.
-/

/-- Python error values raised by the embedded code: the module raises
`RuntimeError` (in `CNode.parent`), `ValueError` (in `CNode.GetCNode`) and
`AssertionError` (in `buildCNode`). -/
inductive PyError where
  | runtimeError (msg : String)
  | valueError (msg : String)
  | assertionError (msg : String)
  deriving DecidableEq, Repr

/-- Evaluates to `true` exactly when the embedded Python computation raised
an exception. -/
def exceptIsError : Except PyError α → Bool
  | .error _ => true
  | .ok _ => false

/-- Host constant `idc.BADADDR` (the "no address" marker of the host SDK;
`idc` is the host's module, external to this repository). Its concrete value
is irrelevant to the code, which only compares addresses to it. -/
def BADADDR : Nat := 0xFFFFFFFFFFFFFFFF

/-- Host `citem_t` handle as far as the embedded code observes it: the code
reads exactly its discriminant `op` (in `GetCNode` and `is_handling_type`)
and its address `ea` (through `AbstractCItem.ea`). -/
structure CItem where
  op : Nat
  ea : Nat
  deriving DecidableEq, Repr

/-- Embedding of a `CNode` object as built by `CNode.__init__`
(`cnode.py` lines 40-68): it stores the `citem_t` handle (via
`AbstractCItem.__init__`, as `self._citem`), the `HxCFunc` handle
(`self._hxcfunc`, embedded as an opaque `Nat` id) and the parent node
(`self._parent`, `None` for a root node).  The parent reference is
represented by the list `ancestorFrames` of the `(citem, hxcfunc)` pairs of
the strict ancestors, ordered from the parent up to the root; an empty list
represents `self._parent is None`. -/
structure CNode where
  citem : CItem
  hxcfunc : Nat
  ancestorFrames : List (CItem × Nat)
  deriving DecidableEq, Repr

/-- Stored `self._parent` reference of a node: `none` for a root node,
otherwise the parent node itself (whose own ancestors are the remaining
frames). -/
def CNode.parentField (n : CNode) : Option CNode :=
  match n.ancestorFrames with
  | [] => none
  | (c, f) :: rest => some ⟨c, f, rest⟩

/-- Translation of `CNode.__init__` (`cnode.py` lines 40-68): the
constructor stores the `citem`, the `hxcfunc` and the (optional) parent
node, and nothing else. -/
def CNode.mkNode (citem : CItem) (hxcfunc : Nat) (parent : Option CNode) : CNode :=
  match parent with
  | none => ⟨citem, hxcfunc, []⟩
  | some p => ⟨citem, hxcfunc, (p.citem, p.hxcfunc) :: p.ancestorFrames⟩

/-- Modelled from the spec: `AbstractCItem.ea` (file `astnode.py`, a file of
this repository not present under `src/`) exposes the host item's address
field; the wrapper "exposes host handle's fields as properties". -/
def CNode.ea (n : CNode) : Nat := n.citem.ea

/-- Translation of the `CNode.has_parent` property (`cnode.py` lines
98-104): `return self._parent is not None`. -/
def CNode.has_parent (n : CNode) : Bool := n.parentField.isSome

/-- Translation of the `CNode.parent` property (`cnode.py` lines 106-117):
raises `RuntimeError` when `self._parent is None`, otherwise returns
`self._parent`. -/
def CNode.parent (n : CNode) : Except PyError CNode :=
  match n.parentField with
  | none => .error (.runtimeError "CNode as not parent")
  | some p => .ok p

/-- Translation of the `CNode.cfunc` property (`cnode.py` lines 119-128):
`return self._hxcfunc`. -/
def CNode.cfunc (n : CNode) : Nat := n.hxcfunc

/-- Translation of the `while` loop of `CNode.closest_ea` (`cnode.py` lines
86-90): `while ea == idc.BADADDR and obj is not None: ea = obj.ea;
obj = obj._parent`; returns the final value of `ea`.  The current node
`obj` is given by its frame (head of the list) and its own ancestors (tail
of the list). -/
def closestEaLoop : Nat → List (CItem × Nat) → Nat
  | ea, [] => ea
  | ea, (c, _) :: rest => if ea = BADADDR then closestEaLoop c.ea rest else ea

/-- Translation of the `CNode.closest_ea` property (`cnode.py` lines
72-94): runs the loop starting from `self.ea` and `self._parent`, then
returns `None` if the resulting address is still `BADADDR` and the address
otherwise.  The property's body contains no `raise`, so the embedded
computation never produces an `Except.error`. -/
def CNode.closest_ea (n : CNode) : Except PyError (Option Nat) :=
  let r := closestEaLoop n.ea n.ancestorFrames
  if r = BADADDR then .ok none else .ok (some r)

/-- Nodes corresponding to a list of ancestor frames, each node paired with
the ancestors that remain above it. -/
def framesChain : List (CItem × Nat) → List CNode
  | [] => []
  | (c, f) :: rest => ⟨c, f, rest⟩ :: framesChain rest

/-- Parent chain of a node: the node itself, then its parent, up to the
root. -/
def CNode.chain (n : CNode) : List CNode := n :: framesChain n.ancestorFrames

/-- Address of the first node of a list whose `ea` is not `BADADDR`, if
any. -/
def findEaList (l : List CNode) : Option Nat :=
  (l.find? (fun m => m.ea != BADADDR)).map (fun m => m.ea)

/-- First non-`BADADDR` address on the parent chain of a node, if any. -/
def CNode.firstChainEa (n : CNode) : Option Nat := findEaList n.chain

/-- Evaluates to `true` when every node on the parent chain of `n` has
address `BADADDR`. -/
def CNode.chainAllBad (n : CNode) : Bool :=
  n.chain.all (fun m => m.ea == BADADDR)

/-- Concrete two-node chain on which every `ea` is `BADADDR`. -/
def badNode : CNode := ⟨⟨0, BADADDR⟩, 0, [(⟨1, BADADDR⟩, 0)]⟩

/-- Concrete node used to refute C5: same host item handle as `cnodeB`,
different `HxCFunc` handle. -/
def cnodeA : CNode := CNode.mkNode ⟨0, 0⟩ 0 none

/-- Concrete node used to refute C5: same host item handle as `cnodeA`,
different `HxCFunc` handle. -/
def cnodeB : CNode := CNode.mkNode ⟨0, 0⟩ 1 none

/-- Rose tree of decompiled AST nodes for the visitor claims: a node
carries its host item and the list of its child nodes (the children a
`CNode` exposes through `ops` / `st_childs` / `expr_childs`). -/
inductive CNodeT where
  | node (item : CItem) (children : List CNodeT)

mutual
/-- Modelled from the spec: `cnode_visitor.visit_dfs_cnode` (file
`cnode_visitor.py`, a file of this repository not present under `src/`),
wrapped by `CNode.visit_cnode` (`cnode.py` lines 132-145): it visits "this
CNode element and all those bellow it" with a DFS algorithm, calling the
callback on each visited node; the embedding returns the visitation order
as a list (the node itself first, then the subtrees of its children in
order). -/
def visit_cnode : CNodeT → List CNodeT
  | .node it ch => .node it ch :: visit_cnode_children ch

/-- Concatenated DFS visitation orders of a list of sibling subtrees. -/
def visit_cnode_children : List CNodeT → List CNodeT
  | [] => []
  | c :: cs => visit_cnode c ++ visit_cnode_children cs
end

/-- Translation of `CNode.get_cnode_filter` (`cnode.py` lines 167-188): it
starts from an empty list `l`, visits all nodes with `visit_cnode`, and the
callback appends each visited node satisfying `cb_filter` to `l`; the final
list is returned. -/
def get_cnode_filter (n : CNodeT) (cb_filter : CNodeT → Bool) : List CNodeT :=
  (visit_cnode n).foldl (fun l cn => if cb_filter cn then l ++ [cn] else l) []

/-- Expression nodes for the `ignore_cast` claim: a `CNodeExprCast` node
wraps its single child expression (its `operand`); every other expression
node is either "final" (no child expressions) or recursive with a list of
child expressions. -/
inductive CNodeExprT where
  | cast (item : CItem) (child : CNodeExprT)
  | final (item : CItem) (value : Nat)
  | other (item : CItem) (ops : List CNodeExprT)

/-- Evaluates to `true` exactly on `CNodeExprCast` nodes. -/
def CNodeExprT.isCast : CNodeExprT → Bool
  | .cast _ _ => true
  | _ => false

/-- Translation of `CNode.ignore_cast` (`cnode.py` lines 213-223), whose
default implementation returns `self`, together with the `CNodeExprCast`
override registered with `addCNodeMethod` (`cnode.py` lines 631-643), which
returns `self.operand.ignore_cast` (`operand`, defined in `hx_citem.py`
which is not under `src/`, is modelled from the spec as the cast's child
expression). -/
def CNodeExprT.ignore_cast : CNodeExprT → CNodeExprT
  | .cast _ child => child.ignore_cast
  | .final it v => .final it v
  | .other it ops => .other it ops

/-- Runtime class hierarchy as `CNode.GetCNode` observes it: classes are
identified by `Nat` ids, `sub c` is the list `c.__subclasses__()`, and
`handles c op` is the classmethod `c.is_handling_type(op)` (defined in
`astnode.py`, outside `src/`; only its boolean outcome matters here).  The
id `0` is reserved for the class `CNode` itself. -/
structure ClassHierarchy where
  sub : Nat → List Nat
  handles : Nat → Nat → Bool

/-- Instance produced by a successful dispatch: the source returns
`cl(citem, hxcfunc, parent)`, i.e. an instance of class `cl` constructed
from exactly the three arguments of `GetCNode`. -/
structure PyInstance where
  cls : Nat
  citem : CItem
  hxcfunc : Nat
  parentRef : Option Nat
  deriving DecidableEq, Repr

/-- Outcome of `CNode.GetCNode`: a constructed instance, the `ValueError`
of the final `raise`, or exhaustion of the fuel that totalizes the `while`
loop of the embedded worklist. -/
inductive GetCNodeResult where
  | ok (inst : PyInstance)
  | valueError
  | outOfFuel
  deriving DecidableEq, Repr

/-- Translation of the worklist loop of `CNode.GetCNode` (`cnode.py` lines
275-286): `done`/`todo` are the two Python sets (embedded as lists; the
unspecified `set.pop()` order is fixed to the list head, and the `done`
membership test keeps duplicate entries harmless exactly as in the source);
each iteration pops `cl`, skips it when already done, returns
`cl(citem, hxcfunc, parent)` when `cl.is_handling_type(citem.op)`, and
otherwise marks `cl` done and adds `cl.__subclasses__()` to `todo`.  When
`todo` is exhausted the source raises `ValueError`.  The `fuel` parameter
totalizes the loop; the theorems show any fuel above an explicit bound is
never exhausted. -/
def getCNodeLoop (H : ClassHierarchy) (citem : CItem) (hxcfunc : Nat)
    (parentRef : Option Nat) : Nat → List Nat → List Nat → GetCNodeResult
  | 0, _, _ => .outOfFuel
  | _ + 1, _, [] => .valueError
  | fuel + 1, done, cl :: todo =>
    if cl ∈ done then getCNodeLoop H citem hxcfunc parentRef fuel done todo
    else if H.handles cl citem.op then .ok ⟨cl, citem, hxcfunc, parentRef⟩
    else getCNodeLoop H citem hxcfunc parentRef fuel (cl :: done)
      (todo ++ H.sub cl)

/-- Translation of `CNode.GetCNode` (`cnode.py` lines 246-286): starts the
worklist with `done = set()` and `todo = set(CNode.__subclasses__())`
(class `CNode` has id `0`). -/
def GetCNode (H : ClassHierarchy) (fuel : Nat) (citem : CItem)
    (hxcfunc : Nat) (parentRef : Option Nat) : GetCNodeResult :=
  getCNodeLoop H citem hxcfunc parentRef fuel [] (H.sub 0)

/-- Transitive subclasses of the class `CNode` (id `0`): its direct
subclasses and, recursively, the subclasses of those. -/
inductive Reach (H : ClassHierarchy) : Nat → Prop where
  | base (c : Nat) : c ∈ H.sub 0 → Reach H c
  | step (c c' : Nat) : Reach H c → c' ∈ H.sub c → Reach H c'

/-- Fuel potential of a worklist state: the pending `todo` entries plus,
for every class not yet `done`, one processing step and the length of its
subclass list.  Every loop iteration strictly decreases it. -/
def phiSum (H : ClassHierarchy) (N : Nat) (done : List Nat) : Nat :=
  ∑ c ∈ (Finset.range N).filter (fun c => c ∉ done), (1 + (H.sub c).length)

/-- Concrete hierarchy mirroring the module after class generation: `CNode`
(id 0) has subclasses `CNodeExpr` (1) and `CNodeStmt` (2); `CNodeExprNum`
(3) handles item type 61 and `CNodeStmtExpr` (4) handles item type 70. -/
def exHier : ClassHierarchy where
  sub := fun c =>
    match c with
    | 0 => [1, 2]
    | 1 => [3]
    | 2 => [4]
    | _ => []
  handles := fun c op => (c == 3 && op == 61) || (c == 4 && op == 70)

/-- Scan of Python's `str.replace`: left-to-right, non-overlapping; each
occurrence of the (non-empty) pattern is replaced and scanning resumes
after it.  An empty pattern is returned unchanged (the module only replaces
the non-empty pattern `"HxC"`).  The first argument counts the characters
still allowed to be consumed; every step consumes at least one character,
so with the input length as initial count the zero branch is dead code; the
counter only makes the recursion structural. -/
def replaceChars (pat rep : List Char) : Nat → List Char → List Char
  | _, [] => []
  | 0, l => l
  | k + 1, c :: cs =>
    if pat.isPrefixOf (c :: cs) ∧ pat ≠ [] then
      rep ++ replaceChars pat rep k (cs.drop (pat.length - 1))
    else
      c :: replaceChars pat rep k cs

/-- Python `s.replace(pat, rep)` on the underlying character lists. -/
def pyReplace (s pat rep : String) : String :=
  ⟨replaceChars pat.data rep.data s.data.length s.data⟩

/-- Python `d.get(k)` on an insertion-ordered association list. -/
def dictGet [BEq α] (d : List (α × β)) (k : α) : Option β :=
  (d.find? (fun p => p.1 == k)).map (fun p => p.2)

/-- Python `k in d` on an insertion-ordered association list. -/
def dictHasKey [BEq α] (d : List (α × β)) (k : α) : Bool :=
  d.any (fun p => p.1 == k)

/-- Python `d[k] = v` on an insertion-ordered association list: an existing
key keeps its position and gets the new value, a new key is appended. -/
def dictSet [BEq α] (d : List (α × β)) (k : α) (v : β) : List (α × β) :=
  if dictHasKey d k then d.map (fun p => if p.1 == k then (k, v) else p)
  else d ++ [(k, v)]

/-- Python attribute values as the embedded code distinguishes them:
strings (`__module__`, `__doc__`) and opaque function/descriptor objects
(identified by a `Nat` id). -/
inductive PyVal where
  | vstr (s : String)
  | vfun (f : Nat)
  deriving DecidableEq, Repr

/-- Python class object as `buildCNode` observes it: `__name__`,
`__bases__` (ids of base class objects, in order) and `__dict__` (an
insertion-ordered attribute dictionary). -/
structure PyClass where
  name : String
  bases : List Nat
  dict : List (String × PyVal)
  deriving DecidableEq, Repr

/-- Module-level state read and written by `addCNodeMethod` and
`buildCNode`: the table of existing class objects (a class id is an index
into it; `type(...)` appends a fresh class), the `_citem2cnode` dictionary
(`cnode.py` lines 464-468, keyed by class identity), the `_cnodeMethods`
dictionary (`cnode.py` line 479) and the module globals (name to class
id). -/
structure BuildState where
  classes : List PyClass
  citem2cnode : List (Nat × Nat)
  cnodeMethods : List (String × List (String × PyVal))
  globs : List (String × Nat)
  deriving DecidableEq, Repr

/-- Value assigned to `__module__` by `buildCNode` (`cnode.py` line 574):
the `__name__` of the `cnode` module. -/
def cnodeModuleName : String := "bip.hexrays.cnode"

/-- Value assigned to `__doc__` by `buildCNode` (`cnode.py` line 575): the
format string instantiated with the original class name. -/
def cnodeDocOf (nm : String) : String :=
  "Copy of :class:`" ++ nm ++
    "` but which inherit from :class:`CNode`.\nAutomatically created by :func:`~bip.hexrays.cnode.buildCNode`"

/-- Translation of the base-class loop of `buildCNode` (`cnode.py` lines
566-570): looks every base up in `_citem2cnode`, in order, and fails on the
first missing one (the `raise AssertionError` branch). -/
def mapBases (m : List (Nat × Nat)) : List Nat → Option (List Nat)
  | [] => some []
  | b :: bs =>
    match dictGet m b with
    | none => none
    | some cb => (mapBases m bs).map (fun l => cb :: l)

/-- Attribute dictionary of the class generated by `buildCNode` (`cnode.py`
lines 572-583): a copy of `cls.__dict__` with `__module__` and `__doc__`
reassigned, then every `(name, function)` pair registered in
`_cnodeMethods` under the generated name set in order. -/
def buildAttr (st : BuildState) (cls : PyClass) : List (String × PyVal) :=
  let attr0 := dictSet (dictSet cls.dict "__module__" (.vstr cnodeModuleName))
    "__doc__" (.vstr (cnodeDocOf cls.name))
  match dictGet st.cnodeMethods (pyReplace cls.name "HxC" "CNode") with
  | none => attr0
  | some ms => ms.foldl (fun a p => dictSet a p.1 p.2) attr0

/-- Translation of `buildCNode` (`cnode.py` lines 544-599): raises
`AssertionError` when `cls` is already a key of `_citem2cnode` or when some
base of `cls` is missing from it; otherwise creates the new class (name
`cls.__name__.replace("HxC", "CNode")`, mapped bases, attribute dictionary
`buildAttr`), appends it to the class table, binds it in the module globals
under its name, records it in `_citem2cnode` under key `cls`, and returns
the original class `cls` unmodified.  Passing an id outside the class table
is a model artifact reported as a distinct error. -/
def buildCNode (st : BuildState) (clsId : Nat) : Except PyError (BuildState × Nat) :=
  match st.classes[clsId]? with
  | none => .error (.assertionError "invalid class id")
  | some cls =>
    if dictHasKey st.citem2cnode clsId then
      .error (.assertionError "Equivalent class has already been created")
    else
      match mapBases st.citem2cnode cls.bases with
      | none => .error (.assertionError "Base class does not exist: impossible to generate dynamically")
      | some lb =>
        let nm := pyReplace cls.name "HxC" "CNode"
        let newId := st.classes.length
        .ok ({ classes := st.classes ++ [⟨nm, lb, buildAttr st cls⟩],
               citem2cnode := st.citem2cnode ++ [(clsId, newId)],
               cnodeMethods := st.cnodeMethods,
               globs := dictSet st.globs nm newId }, clsId)

/-- Translation of `addCNodeMethod` (`cnode.py` lines 481-541): registers
the pair `(fn, func)` under `cnode_name` in `_cnodeMethods`, creating the
entry list when absent and appending to it otherwise (`fn` is the method
name the decorator selects; the decorated function is returned unchanged,
so only the state update is modelled). -/
def addCNodeMethod (st : BuildState) (cnode_name : String) (fn : String)
    (func : PyVal) : BuildState :=
  if dictHasKey st.cnodeMethods cnode_name then
    let ms := st.cnodeMethods.map
      (fun p => if p.1 == cnode_name then (p.1, p.2 ++ [(fn, func)]) else p)
    { st with cnodeMethods := ms }
  else
    { st with cnodeMethods := st.cnodeMethods ++ [(cnode_name, [(fn, func)])] }

/-- Generated class of a successful `buildCNode` call: the class object the
call appended to the class table. -/
def generatedClass (st : BuildState) (clsId : Nat) : Option PyClass :=
  match buildCNode st clsId with
  | .ok (st2, _) => st2.classes.getLast?
  | .error _ => none

/-- Module state mirroring `cnode.py` before class generation: class ids
`0`-`5` are `HxCItem`, `HxCExpr`, `HxCStmt`, `CNode`, `CNodeExpr`,
`CNodeStmt`; `_citem2cnode` holds the three initial pairs (`cnode.py` lines
464-468); id `6` is a class shaped like `HxCExprVar` and id `7` a class
whose name `"HxCHxC"` contains two occurrences of `"HxC"`.  The
`_cnodeMethods` registrations are made with `addCNodeMethod`, as in the
module (`cnode.py` lines 602-643), plus one under `"CNodeCNode"` for the
second example class. -/
def stEx : BuildState :=
  addCNodeMethod (addCNodeMethod (addCNodeMethod (addCNodeMethod
    { classes := [⟨"HxCItem", [], [("__module__", .vstr "bip.hexrays.hx_citem")]⟩,
                  ⟨"HxCExpr", [0], []⟩,
                  ⟨"HxCStmt", [0], []⟩,
                  ⟨"CNode", [], []⟩,
                  ⟨"CNodeExpr", [3], []⟩,
                  ⟨"CNodeStmt", [3], []⟩,
                  ⟨"HxCExprVar", [1], [("op", .vfun 1), ("lvar", .vfun 2)]⟩,
                  ⟨"HxCHxC", [1], [("foo", .vfun 20)]⟩],
      citem2cnode := [(0, 3), (1, 4), (2, 5)],
      cnodeMethods := [],
      globs := [] }
    "CNodeExprVar" "lvar" (.vfun 10))
    "CNodeExprVar" "lvar_name" (.vfun 11))
    "CNodeExprCast" "ignore_cast" (.vfun 12))
    "CNodeCNode" "bar" (.vfun 21)

theorem closestEaLoop_spec : ∀ (l : List (CItem × Nat)) (ea : Nat),
    (if closestEaLoop ea l = BADADDR then none else some (closestEaLoop ea l))
      = if ea = BADADDR then findEaList (framesChain l) else some ea
  | [], ea => by
    by_cases h : ea = BADADDR <;> simp [closestEaLoop, framesChain, findEaList, h]
  | (c, f) :: rest, ea => by
    have ih := closestEaLoop_spec rest c.ea
    by_cases h : ea = BADADDR
    · by_cases h2 : c.ea = BADADDR <;>
        simp [closestEaLoop, framesChain, findEaList, h, h2, CNode.ea] at ih ⊢ <;>
        simpa using ih
    · simp [closestEaLoop, h]

theorem closest_ea_eq_findEaList (n : CNode) :
    n.closest_ea = .ok (findEaList n.chain) := by
  obtain ⟨c, f, l⟩ := n
  have h := closestEaLoop_spec l (CItem.ea c)
  by_cases hc : c.ea = BADADDR <;>
    by_cases hl : closestEaLoop c.ea l = BADADDR <;>
    simp [CNode.closest_ea, CNode.chain, framesChain, findEaList, CNode.ea,
      hc, hl] at h ⊢ <;>
    simp_all [findEaList]

/-- C8: for every CNode `n`, if some node on the parent chain of `n`
(starting at `n` itself) has an `ea` different from `idc.BADADDR`, then
`n.closest_ea` returns the `ea` of the first such node; if every node of
the chain has `ea` equal to `idc.BADADDR`, `n.closest_ea` returns `None`. -/
theorem closest_ea_first_in_chain (n : CNode) :
    n.closest_ea = .ok n.firstChainEa :=
  closest_ea_eq_findEaList n

/-- C4 counterexample: on a concrete node on which no address can be found
(every node of its parent chain has `ea = idc.BADADDR`), `closest_ea`
returns `None`; no exception is raised, contrary to the claim that the
failure is surfaced as a generic runtime error. -/
theorem closest_ea_no_exception :
    badNode.chainAllBad = true ∧
    badNode.closest_ea = .ok none ∧
    exceptIsError badNode.closest_ea = false := by
  refine ⟨by decide, rfl, rfl⟩

/-- C4 (amended): for every CNode `n` on which no address can be found
(`n.ea` and the `ea` of every ancestor of `n` equal `idc.BADADDR`),
`n.closest_ea` returns `None`; no exception is raised. -/
theorem closest_ea_all_bad_returns_none (n : CNode) (h : n.chainAllBad = true) :
    n.closest_ea = .ok none ∧ exceptIsError n.closest_ea = false := by
  have hfind : findEaList n.chain = none := by
    unfold findEaList
    rw [List.find?_eq_none.mpr]
    · rfl
    · intro m hm
      have := List.all_eq_true.mp h m hm
      simpa using this
  rw [closest_ea_eq_findEaList, hfind]
  exact ⟨rfl, rfl⟩

theorem closest_ea_all_bad_returns_none_witness :
    badNode.closest_ea = .ok none ∧ exceptIsError badNode.closest_ea = false :=
  closest_ea_all_bad_returns_none badNode (by decide)

/-- C3: for every CNode `n`, reading `n.parent` raises a `RuntimeError` if
and only if `n` has no parent (`n.has_parent` is false); otherwise it
returns the parent node.  The embedded property is a pure function of `n`,
so it modifies nothing. -/
theorem parent_error_iff (n : CNode) :
    (exceptIsError n.parent = true ↔ n.has_parent = false) ∧
    (∀ p, n.parentField = some p → n.parent = .ok p) := by
  obtain ⟨c, f, l⟩ := n
  cases l with
  | nil => simp [CNode.parent, CNode.has_parent, CNode.parentField, exceptIsError]
  | cons hd tl =>
    obtain ⟨c2, f2⟩ := hd
    simp [CNode.parent, CNode.has_parent, CNode.parentField, exceptIsError]

theorem parent_error_iff_witness :
    CNode.parent ⟨⟨0, 0⟩, 0, [(⟨1, 2⟩, 3)]⟩ = .ok ⟨⟨1, 2⟩, 3, []⟩ :=
  (parent_error_iff ⟨⟨0, 0⟩, 0, [(⟨1, 2⟩, 3)]⟩).2 ⟨⟨1, 2⟩, 3, []⟩ rfl

/-- C5 counterexample: two CNode objects proxying the same host item handle
are distinguishable (their `cfunc` properties differ), so the host item
handle is not the only data a CNode holds: the constructor also stores the
`HxCFunc` handle and the parent link. -/
theorem cnode_holds_more_than_citem :
    cnodeA.citem = cnodeB.citem ∧ cnodeA.cfunc ≠ cnodeB.cfunc ∧ cnodeA ≠ cnodeB := by
  decide

/-- C5 (amended): a CNode holds exactly the three pieces of data received
at construction — the host item handle, the `HxCFunc` handle and the
optional parent link — and nothing else: the object is fully determined by
these three fields, and the constructor stores its arguments unchanged. -/
theorem cnode_state_exactly_constructor_args :
    (∀ n : CNode, n = CNode.mkNode n.citem n.hxcfunc n.parentField) ∧
    (∀ c f p, (CNode.mkNode c f p).citem = c ∧ (CNode.mkNode c f p).hxcfunc = f ∧
      (CNode.mkNode c f p).parentField = p) := by
  constructor
  · intro n
    obtain ⟨c, f, l⟩ := n
    cases l with
    | nil => rfl
    | cons hd tl => obtain ⟨c2, f2⟩ := hd; rfl
  · intro c f p
    cases p <;> simp [CNode.mkNode, CNode.parentField]

/-- C6: constructor/accessor round-trip: for every citem `c`, hxcfunc `f`
and non-None parent `p`, the node built as `CNode(c, f, p)` satisfies
`n.cfunc == f`, `n.parent == p` and `n.has_parent == True`. -/
theorem cnode_roundtrip (c : CItem) (f : Nat) (p : CNode) :
    (CNode.mkNode c f (some p)).cfunc = f ∧
    (CNode.mkNode c f (some p)).parent = .ok p ∧
    (CNode.mkNode c f (some p)).has_parent = true := by
  refine ⟨rfl, ?_, rfl⟩
  simp [CNode.mkNode, CNode.parent, CNode.parentField]

theorem foldl_filter_append (cb : α → Bool) :
    ∀ (l acc : List α),
      l.foldl (fun l2 cn => if cb cn then l2 ++ [cn] else l2) acc
        = acc ++ l.filter cb
  | [], acc => by simp
  | x :: xs, acc => by
    by_cases h : cb x <;>
      simp [List.foldl_cons, List.filter_cons, h, foldl_filter_append cb xs]

/-- C7: for every CNode `n` and predicate `cb_filter`,
`n.get_cnode_filter(cb_filter)` returns exactly the subsequence of the
nodes visited by `n.visit_cnode` — the node itself first, then all nodes
below it, in DFS visitation order — on which `cb_filter` returns true, in
that same order.  The embedded functions are pure, so `n` is unchanged. -/
theorem get_cnode_filter_spec (n : CNodeT) (cb_filter : CNodeT → Bool) :
    get_cnode_filter n cb_filter = (visit_cnode n).filter cb_filter ∧
    (visit_cnode n).head? = some n := by
  constructor
  · simp [get_cnode_filter, foldl_filter_append]
  · obtain ⟨it, ch⟩ := n
    simp [visit_cnode]

/-- C9: `ignore_cast` never returns a cast node and is therefore
idempotent: for every expression node `x` (including any finite chain of
nested `CNodeExprCast` nodes), `x.ignore_cast` is not a cast and
`(x.ignore_cast).ignore_cast == x.ignore_cast`. -/
theorem ignore_cast_idempotent : ∀ x : CNodeExprT,
    (x.ignore_cast).isCast = false ∧
      x.ignore_cast.ignore_cast = x.ignore_cast
  | .cast it child => by
    have ih := ignore_cast_idempotent child
    simpa [CNodeExprT.ignore_cast] using ih
  | .final it v => by simp [CNodeExprT.ignore_cast, CNodeExprT.isCast]
  | .other it ops => by simp [CNodeExprT.ignore_cast, CNodeExprT.isCast]

theorem getCNodeLoop_ok_reach (H : ClassHierarchy) (citem : CItem)
    (hxcfunc : Nat) (parentRef : Option Nat) :
    ∀ (fuel : Nat) (done todo : List Nat),
      (∀ c ∈ todo, Reach H c) →
      ∀ inst, getCNodeLoop H citem hxcfunc parentRef fuel done todo = .ok inst →
        Reach H inst.cls ∧ H.handles inst.cls citem.op = true ∧
        inst.citem = citem ∧ inst.hxcfunc = hxcfunc ∧ inst.parentRef = parentRef
  | 0, done, todo => by simp [getCNodeLoop]
  | fuel + 1, done, [] => by simp [getCNodeLoop]
  | fuel + 1, done, cl :: todo => by
    intro hr inst h
    simp only [getCNodeLoop] at h
    by_cases h1 : cl ∈ done
    · rw [if_pos h1] at h
      exact getCNodeLoop_ok_reach H citem hxcfunc parentRef fuel done todo
        (fun c hc => hr c (List.mem_cons_of_mem _ hc)) inst h
    · rw [if_neg h1] at h
      by_cases h2 : H.handles cl citem.op = true
      · rw [if_pos h2] at h
        cases h
        exact ⟨hr cl (List.mem_cons_self _ _), h2, rfl, rfl, rfl⟩
      · rw [if_neg h2] at h
        refine getCNodeLoop_ok_reach H citem hxcfunc parentRef fuel (cl :: done)
          (todo ++ H.sub cl) ?_ inst h
        intro c hc
        rcases List.mem_append.mp hc with h' | h'
        · exact hr c (List.mem_cons_of_mem _ h')
        · exact Reach.step cl c (hr cl (List.mem_cons_self _ _)) h'

theorem getCNodeLoop_valueError_complete (H : ClassHierarchy) (citem : CItem)
    (hxcfunc : Nat) (parentRef : Option Nat) :
    ∀ (fuel : Nat) (done todo : List Nat),
      (∀ c ∈ done, H.handles c citem.op = false) →
      (∀ c ∈ done, ∀ c' ∈ H.sub c, c' ∈ done ∨ c' ∈ todo) →
      (∀ c ∈ H.sub 0, c ∈ done ∨ c ∈ todo) →
      getCNodeLoop H citem hxcfunc parentRef fuel done todo = .valueError →
      ∀ cl, Reach H cl → H.handles cl citem.op = false
  | 0, done, todo => by simp [getCNodeLoop]
  | fuel + 1, done, [] => by
    intro hdone hclosed hinit _ cl hreach
    have hmem : ∀ c, Reach H c → c ∈ done := by
      intro c hc
      induction hc with
      | base c h =>
        rcases hinit c h with h' | h'
        · exact h'
        · simp at h'
      | step c c' hr h ih =>
        rcases hclosed c ih c' h with h' | h'
        · exact h'
        · simp at h'
    exact hdone cl (hmem cl hreach)
  | fuel + 1, done, cl :: todo => by
    intro hdone hclosed hinit h
    simp only [getCNodeLoop] at h
    by_cases h1 : cl ∈ done
    · rw [if_pos h1] at h
      refine getCNodeLoop_valueError_complete H citem hxcfunc parentRef fuel done todo
        hdone ?_ ?_ h
      · intro c hc c' hc'
        rcases hclosed c hc c' hc' with h' | h'
        · exact Or.inl h'
        · rcases List.mem_cons.mp h' with rfl | h''
          · exact Or.inl h1
          · exact Or.inr h''
      · intro c hc
        rcases hinit c hc with h' | h'
        · exact Or.inl h'
        · rcases List.mem_cons.mp h' with rfl | h''
          · exact Or.inl h1
          · exact Or.inr h''
    · rw [if_neg h1] at h
      by_cases h2 : H.handles cl citem.op = true
      · rw [if_pos h2] at h; cases h
      · rw [if_neg h2] at h
        refine getCNodeLoop_valueError_complete H citem hxcfunc parentRef fuel
          (cl :: done) (todo ++ H.sub cl) ?_ ?_ ?_ h
        · intro c hc
          rcases List.mem_cons.mp hc with rfl | h'
          · exact Bool.eq_false_iff.mpr h2
          · exact hdone c h'
        · intro c hc c' hc'
          rcases List.mem_cons.mp hc with rfl | h'
          · exact Or.inr (List.mem_append.mpr (Or.inr hc'))
          · rcases hclosed c h' c' hc' with h'' | h''
            · exact Or.inl (List.mem_cons_of_mem _ h'')
            · rcases List.mem_cons.mp h'' with rfl | h3
              · exact Or.inl (List.mem_cons_self _ _)
              · exact Or.inr (List.mem_append.mpr (Or.inl h3))
        · intro c hc
          rcases hinit c hc with h' | h'
          · exact Or.inl (List.mem_cons_of_mem _ h')
          · rcases List.mem_cons.mp h' with rfl | h''
            · exact Or.inl (List.mem_cons_self _ _)
            · exact Or.inr (List.mem_append.mpr (Or.inl h''))

theorem phiSum_shift (H : ClassHierarchy) (N : Nat) (done : List Nat) (cl : Nat)
    (h1 : cl < N) (h2 : cl ∉ done) :
    phiSum H N done = 1 + (H.sub cl).length + phiSum H N (cl :: done) := by
  unfold phiSum
  have hset : (Finset.range N).filter (fun c => c ∉ done)
      = insert cl ((Finset.range N).filter (fun c => c ∉ cl :: done)) := by
    ext x
    simp only [Finset.mem_filter, Finset.mem_insert, Finset.mem_range, List.mem_cons]
    constructor
    · rintro ⟨hx, hnd⟩
      by_cases hxc : x = cl
      · exact Or.inl hxc
      · exact Or.inr ⟨hx, fun hor => hor.elim hxc hnd⟩
    · rintro (rfl | ⟨hx, hor⟩)
      · exact ⟨h1, h2⟩
      · exact ⟨hx, fun hd => hor (Or.inr hd)⟩
  have hnotmem : cl ∉ (Finset.range N).filter (fun c => c ∉ cl :: done) := by
    simp
  rw [hset, Finset.sum_insert hnotmem]

theorem getCNodeLoop_fuel_enough (H : ClassHierarchy) (citem : CItem)
    (hxcfunc : Nat) (parentRef : Option Nat) (N : Nat)
    (hb : ∀ c c', c' ∈ H.sub c → c' < N) :
    ∀ (fuel : Nat) (done todo : List Nat),
      (∀ c ∈ todo, c < N) →
      todo.length + phiSum H N done < fuel →
      getCNodeLoop H citem hxcfunc parentRef fuel done todo ≠ .outOfFuel
  | 0, done, todo => by intro _ hf; omega
  | fuel + 1, done, [] => by simp [getCNodeLoop]
  | fuel + 1, done, cl :: todo => by
    intro htodo hf
    simp only [getCNodeLoop]
    by_cases h1 : cl ∈ done
    · rw [if_pos h1]
      refine getCNodeLoop_fuel_enough H citem hxcfunc parentRef N hb fuel done todo ?_ ?_
      · intro c hc
        exact htodo c (List.mem_cons_of_mem _ hc)
      · simp only [List.length_cons] at hf
        omega
    · rw [if_neg h1]
      by_cases h2 : H.handles cl citem.op = true
      · rw [if_pos h2]
        simp
      · rw [if_neg h2]
        refine getCNodeLoop_fuel_enough H citem hxcfunc parentRef N hb fuel (cl :: done)
          (todo ++ H.sub cl) ?_ ?_
        · intro c hc
          rcases List.mem_append.mp hc with h' | h'
          · exact htodo c (List.mem_cons_of_mem _ h')
          · exact hb cl c h'
        · have hphi := phiSum_shift H N done cl (htodo cl (List.mem_cons_self _ _)) h1
          simp only [List.length_append, List.length_cons] at hf ⊢
          omega

/-- C1: for every citem, hxcfunc and parent, `CNode.GetCNode` walks the
transitive subclasses of `CNode` and, if some subclass `cl` has
`cl.is_handling_type(citem.op)` true, returns an instance of such a
subclass constructed as `cl(citem, hxcfunc, parent)`; if no subclass of
`CNode` handles `citem.op`, it raises a `ValueError`.  `N` bounds the class
ids of the hierarchy and `fuel` totalizes the `while` loop; any fuel above
the stated potential is enough, so the dichotomy covers every run of the
source loop. -/
theorem GetCNode_dispatch (H : ClassHierarchy) (N : Nat) (citem : CItem)
    (hxcfunc : Nat) (parentRef : Option Nat) (fuel : Nat)
    (hb : ∀ c c', c' ∈ H.sub c → c' < N)
    (hf : (H.sub 0).length + phiSum H N [] < fuel) :
    ((∃ cl, Reach H cl ∧ H.handles cl citem.op = true) →
      ∃ inst, GetCNode H fuel citem hxcfunc parentRef = .ok inst ∧
        Reach H inst.cls ∧ H.handles inst.cls citem.op = true ∧
        inst.citem = citem ∧ inst.hxcfunc = hxcfunc ∧ inst.parentRef = parentRef) ∧
    ((∀ cl, Reach H cl → H.handles cl citem.op = false) →
      GetCNode H fuel citem hxcfunc parentRef = .valueError) := by
  have hnotfuel : GetCNode H fuel citem hxcfunc parentRef ≠ .outOfFuel :=
    getCNodeLoop_fuel_enough H citem hxcfunc parentRef N hb fuel [] (H.sub 0)
      (fun c hc => hb 0 c hc) hf
  have hsound := getCNodeLoop_ok_reach H citem hxcfunc parentRef fuel [] (H.sub 0)
    (fun c hc => Reach.base c hc)
  have hcomp := getCNodeLoop_valueError_complete H citem hxcfunc parentRef fuel [] (H.sub 0)
    (by simp) (by simp) (fun c hc => Or.inr hc)
  constructor
  · rintro ⟨cl, hcl, hh⟩
    cases hres : GetCNode H fuel citem hxcfunc parentRef with
    | ok inst => exact ⟨inst, rfl, hsound inst hres⟩
    | valueError =>
      have hfalse := hcomp hres cl hcl
      rw [hh] at hfalse
      cases hfalse
    | outOfFuel => exact absurd hres hnotfuel
  · intro hnone
    cases hres : GetCNode H fuel citem hxcfunc parentRef with
    | ok inst =>
      obtain ⟨hr, hh, _⟩ := hsound inst hres
      rw [hnone inst.cls hr] at hh
      cases hh
    | valueError => rfl
    | outOfFuel => exact absurd hres hnotfuel

theorem exHier_bound : ∀ c c', c' ∈ exHier.sub c → c' < 5 := by
  intro c c' h
  rcases c with _ | _ | _ | n <;> simp [exHier] at h <;> omega

theorem GetCNode_dispatch_witness :
    ∃ inst, GetCNode exHier 20 ⟨61, 0⟩ 7 none = .ok inst ∧
      Reach exHier inst.cls ∧ exHier.handles inst.cls (CItem.op ⟨61, 0⟩) = true ∧
      inst.citem = ⟨61, 0⟩ ∧ inst.hxcfunc = 7 ∧ inst.parentRef = none :=
  (GetCNode_dispatch exHier 5 ⟨61, 0⟩ 7 none 20 exHier_bound (by decide)).1
    ⟨3, Reach.step 1 3 (Reach.base 1 (by simp [exHier])) (by simp [exHier]), by decide⟩

theorem dictGet_cons [BEq α] (k' : α) (v' : β) (d : List (α × β)) (k : α) :
    dictGet ((k', v') :: d) k = if k' == k then some v' else dictGet d k := by
  by_cases h : (k' == k) = true <;> simp [dictGet, List.find?_cons, h]

theorem dictGet_map_set_ne [BEq α] [LawfulBEq α] (k k' : α) (v : β)
    (hne : (k' == k) = false) :
    ∀ d : List (α × β),
      dictGet (d.map (fun p => if p.1 == k' then (k', v) else p)) k = dictGet d k
  | [] => rfl
  | (a, b) :: d => by
    by_cases ha : (a == k') = true
    · have haeq : a = k' := eq_of_beq ha
      subst haeq
      simp [List.map_cons, ha, dictGet_cons, hne, dictGet_map_set_ne k a v hne d]
    · simp [List.map_cons, ha, dictGet_cons, dictGet_map_set_ne k k' v hne d]

theorem dictGet_append_ne [BEq α] [LawfulBEq α] (k k' : α) (v : β)
    (hne : (k' == k) = false) :
    ∀ d : List (α × β), dictGet (d ++ [(k', v)]) k = dictGet d k
  | [] => by simp [dictGet, List.find?, hne]
  | (a, b) :: d => by
    by_cases ha : (a == k) = true <;>
      simp [List.cons_append, dictGet_cons, ha, dictGet_append_ne k k' v hne d]

theorem dictGet_dictSet_ne [BEq α] [LawfulBEq α] (d : List (α × β)) (k k' : α)
    (v : β) (hne : (k' == k) = false) :
    dictGet (dictSet d k' v) k = dictGet d k := by
  unfold dictSet
  by_cases h : dictHasKey d k' = true
  · rw [if_pos h]
    exact dictGet_map_set_ne k k' v hne d
  · rw [if_neg h]
    exact dictGet_append_ne k k' v hne d

theorem dictGet_map_set_self [BEq α] [LawfulBEq α] (k : α) (v : β) :
    ∀ d : List (α × β), dictHasKey d k = true →
      dictGet (d.map (fun p => if p.1 == k then (k, v) else p)) k = some v
  | [], h => by simp [dictHasKey] at h
  | (a, b) :: d, h => by
    by_cases ha : (a == k) = true
    · simp [List.map_cons, ha, dictGet_cons]
    · have hd : dictHasKey d k = true := by
        simpa [dictHasKey, List.any_cons, ha] using h
      simp [List.map_cons, ha, dictGet_cons, dictGet_map_set_self k v d hd]

theorem dictGet_append_self [BEq α] [LawfulBEq α] (k : α) (v : β) :
    ∀ d : List (α × β), dictHasKey d k = false →
      dictGet (d ++ [(k, v)]) k = some v
  | [], _ => by simp [dictGet, List.find?]
  | (a, b) :: d, h => by
    have ha : (a == k) = false := by
      by_contra hcon
      simp [dictHasKey, List.any_cons, Bool.eq_false_iff] at h hcon
      exact h.1 (by simpa using hcon)
    have hd : dictHasKey d k = false := by
      simpa [dictHasKey, List.any_cons, ha] using h
    simp [List.cons_append, dictGet_cons, ha, dictGet_append_self k v d hd]

theorem dictGet_dictSet_self [BEq α] [LawfulBEq α] (d : List (α × β)) (k : α) (v : β) :
    dictGet (dictSet d k v) k = some v := by
  unfold dictSet
  by_cases h : dictHasKey d k = true
  · rw [if_pos h]
    exact dictGet_map_set_self k v d h
  · rw [if_neg h]
    exact dictGet_append_self k v d (Bool.eq_false_iff.mpr h)

theorem dictGet_foldl_notMem [BEq α] [LawfulBEq α] (k : α) :
    ∀ (ms : List (α × β)) (a : List (α × β)),
      (∀ p ∈ ms, (p.1 == k) = false) →
      dictGet (ms.foldl (fun d p => dictSet d p.1 p.2) a) k = dictGet a k
  | [], a, _ => rfl
  | (na, f) :: ms, a, h => by
    simp only [List.foldl_cons]
    rw [dictGet_foldl_notMem k ms (dictSet a na f)
      (fun p hp => h p (List.mem_cons_of_mem _ hp))]
    exact dictGet_dictSet_ne a k na f (h (na, f) (List.mem_cons_self _ _))

theorem dictGet_foldl_nodup [BEq α] [LawfulBEq α] :
    ∀ (ms : List (α × β)) (a : List (α × β)) (k : α) (v : β),
      (ms.map Prod.fst).Nodup → (k, v) ∈ ms →
      dictGet (ms.foldl (fun d p => dictSet d p.1 p.2) a) k = some v
  | [], a, k, v, _, hm => by simp at hm
  | (na, f) :: ms, a, k, v, hnd, hm => by
    have hnd2 : na ∉ ms.map Prod.fst ∧ (ms.map Prod.fst).Nodup :=
      List.nodup_cons.mp hnd
    simp only [List.foldl_cons]
    rcases List.mem_cons.mp hm with heq | hmem
    · injection heq with hk hv
      subst hk
      subst hv
      have hknotin : ∀ p ∈ ms, (p.1 == k) = false := by
        intro p hp
        have hpne : p.1 ≠ k := by
          intro hpe
          exact hnd2.1 (hpe ▸ List.mem_map_of_mem Prod.fst hp)
        simpa using hpne
      rw [dictGet_foldl_notMem k ms (dictSet a k v) hknotin]
      exact dictGet_dictSet_self a k v
    · exact dictGet_foldl_nodup ms (dictSet a na f) k v hnd2.2 hmem

theorem mapBases_some (m : List (Nat × Nat)) :
    ∀ bs : List Nat, (∀ b ∈ bs, (dictGet m b).isSome = true) →
      ∃ lb, mapBases m bs = some lb ∧
        List.Forall₂ (fun b cb => dictGet m b = some cb) bs lb
  | [], _ => ⟨[], rfl, List.Forall₂.nil⟩
  | b :: bs, h => by
    obtain ⟨cb, hcb⟩ := Option.isSome_iff_exists.mp (h b (List.mem_cons_self _ _))
    obtain ⟨lb, hlb, hfa⟩ := mapBases_some m bs
      (fun b' hb' => h b' (List.mem_cons_of_mem _ hb'))
    exact ⟨cb :: lb, by simp [mapBases, hcb, hlb], List.Forall₂.cons hcb hfa⟩

theorem mapBases_none (m : List (Nat × Nat)) :
    ∀ (bs : List Nat) (b : Nat), b ∈ bs → dictGet m b = none → mapBases m bs = none
  | [], b, hb, _ => by simp at hb
  | b' :: bs, b, hb, hn => by
    rcases List.mem_cons.mp hb with rfl | hmem
    · simp [mapBases, hn]
    · cases hg : dictGet m b' with
      | none => simp [mapBases, hg]
      | some cb => simp [mapBases, hg, mapBases_none m bs b hmem hn]

theorem buildCNode_ok_aux (st : BuildState) (clsId : Nat) (cls : PyClass)
    (lb : List Nat)
    (hc : st.classes[clsId]? = some cls)
    (hnot : dictHasKey st.citem2cnode clsId = false)
    (hmb : mapBases st.citem2cnode cls.bases = some lb) :
    buildCNode st clsId = .ok
      ({ classes := st.classes ++
           [⟨pyReplace cls.name "HxC" "CNode", lb, buildAttr st cls⟩],
         citem2cnode := st.citem2cnode ++ [(clsId, st.classes.length)],
         cnodeMethods := st.cnodeMethods,
         globs := dictSet st.globs (pyReplace cls.name "HxC" "CNode")
           st.classes.length }, clsId) := by
  simp [buildCNode, hc, hnot, hmb, buildAttr]

/-- C2 counterexample: on the module state `stEx`, the class with id `7`
(name `"HxCHxC"`, base `HxCExpr` which is a key of `_citem2cnode`, itself
not a key) satisfies the claim's hypotheses, yet the generated class is
named `"CNodeCNode"` — `str.replace` replaces every occurrence of `"HxC"`,
not only a prefix, so the claimed name `"CNodeHxC"` is wrong — and its
attribute dictionary contains the pair `("bar", vfun 21)` registered with
`addCNodeMethod` under `"CNodeCNode"`, which is absent from the claimed
dictionary, the copy of `cls.__dict__` with only `__module__` and `__doc__`
replaced. -/
theorem buildCNode_claim_counterexample :
    dictHasKey stEx.citem2cnode 7 = false ∧
    dictGet stEx.citem2cnode 1 = some 4 ∧
    stEx.classes[7]? = some ⟨"HxCHxC", [1], [("foo", PyVal.vfun 20)]⟩ ∧
    (generatedClass stEx 7).map PyClass.name = some "CNodeCNode" ∧
    "CNodeCNode" ≠ "CNodeHxC" ∧
    (generatedClass stEx 7).map (fun c => dictGet c.dict "bar")
      = some (some (PyVal.vfun 21)) ∧
    dictGet (dictSet (dictSet [("foo", PyVal.vfun 20)] "__module__"
      (PyVal.vstr cnodeModuleName)) "__doc__" (PyVal.vstr (cnodeDocOf "HxCHxC")))
      "bar" = none := by
  decide

/-- C2 (amended): for every module state and class `cls` whose bases are
all keys of `_citem2cnode` and which is not itself a key, `buildCNode`
creates a new class whose bases are exactly the `_citem2cnode` images of
`cls.__bases__` in order, whose attribute dictionary is a copy of
`cls.__dict__` with `__module__` and `__doc__` replaced and with every
`(name, function)` pair registered in `_cnodeMethods` under the generated
name then set over it, whose name is `cls.__name__` with every occurrence
of `"HxC"` replaced by `"CNode"`; it records the new class in
`_citem2cnode` under key `cls` and in the module globals under the
generated name, and returns the original class `cls`; if `cls` is already a
key of `_citem2cnode`, or some base of `cls` is not a key, it raises an
`AssertionError` instead. -/
theorem buildCNode_spec (st : BuildState) (clsId : Nat) (cls : PyClass)
    (hc : st.classes[clsId]? = some cls) :
    (dictHasKey st.citem2cnode clsId = true →
      buildCNode st clsId =
        .error (.assertionError "Equivalent class has already been created")) ∧
    (dictHasKey st.citem2cnode clsId = false →
      ∀ b ∈ cls.bases, dictGet st.citem2cnode b = none →
        buildCNode st clsId = .error (.assertionError
          "Base class does not exist: impossible to generate dynamically")) ∧
    (dictHasKey st.citem2cnode clsId = false →
      (∀ b ∈ cls.bases, (dictGet st.citem2cnode b).isSome = true) →
      ∃ lb, mapBases st.citem2cnode cls.bases = some lb ∧
        List.Forall₂ (fun b cb => dictGet st.citem2cnode b = some cb) cls.bases lb ∧
        buildCNode st clsId = .ok
          ({ classes := st.classes ++
               [⟨pyReplace cls.name "HxC" "CNode", lb, buildAttr st cls⟩],
             citem2cnode := st.citem2cnode ++ [(clsId, st.classes.length)],
             cnodeMethods := st.cnodeMethods,
             globs := dictSet st.globs (pyReplace cls.name "HxC" "CNode")
               st.classes.length }, clsId)) := by
  refine ⟨?_, ?_, ?_⟩
  · intro h
    simp [buildCNode, hc, h]
  · intro hnot b hb hnone
    simp [buildCNode, hc, hnot, mapBases_none st.citem2cnode cls.bases b hb hnone]
  · intro hnot hbases
    obtain ⟨lb, hlb, hfa⟩ := mapBases_some st.citem2cnode cls.bases hbases
    exact ⟨lb, hlb, hfa, buildCNode_ok_aux st clsId cls lb hc hnot hlb⟩

theorem buildCNode_spec_witness :
    ∃ lb, mapBases stEx.citem2cnode
        (PyClass.bases ⟨"HxCExprVar", [1], [("op", PyVal.vfun 1), ("lvar", PyVal.vfun 2)]⟩)
        = some lb ∧
      List.Forall₂ (fun b cb => dictGet stEx.citem2cnode b = some cb)
        (PyClass.bases ⟨"HxCExprVar", [1], [("op", PyVal.vfun 1), ("lvar", PyVal.vfun 2)]⟩) lb ∧
      buildCNode stEx 6 = .ok
        ({ classes := stEx.classes ++
             [⟨pyReplace (PyClass.name ⟨"HxCExprVar", [1],
                  [("op", PyVal.vfun 1), ("lvar", PyVal.vfun 2)]⟩) "HxC" "CNode", lb,
               buildAttr stEx ⟨"HxCExprVar", [1], [("op", PyVal.vfun 1), ("lvar", PyVal.vfun 2)]⟩⟩],
           citem2cnode := stEx.citem2cnode ++ [(6, stEx.classes.length)],
           cnodeMethods := stEx.cnodeMethods,
           globs := dictSet stEx.globs
             (pyReplace (PyClass.name ⟨"HxCExprVar", [1],
               [("op", PyVal.vfun 1), ("lvar", PyVal.vfun 2)]⟩) "HxC" "CNode")
             stEx.classes.length }, 6) :=
  (buildCNode_spec stEx 6 ⟨"HxCExprVar", [1], [("op", PyVal.vfun 1), ("lvar", PyVal.vfun 2)]⟩
    (by decide)).2.2 (by decide) (by decide)

/-- C10: for every class `cls` successfully processed by `buildCNode`,
every `(name, function)` pair previously registered with `addCNodeMethod`
under the generated class's name (registered names being distinct) is
installed as an attribute of the generated CNode class, and the registered
function overrides any attribute of the same name copied from
`cls.__dict__`: the generated class's dictionary maps the registered name
to the registered function. -/
theorem buildCNode_methods_installed (st : BuildState) (clsId : Nat) (cls : PyClass)
    (ms : List (String × PyVal)) (na : String) (f : PyVal)
    (hc : st.classes[clsId]? = some cls)
    (hnot : dictHasKey st.citem2cnode clsId = false)
    (hbases : ∀ b ∈ cls.bases, (dictGet st.citem2cnode b).isSome = true)
    (hms : dictGet st.cnodeMethods (pyReplace cls.name "HxC" "CNode") = some ms)
    (hnd : (ms.map Prod.fst).Nodup)
    (hmem : (na, f) ∈ ms) :
    (generatedClass st clsId).map (fun ncl => dictGet ncl.dict na)
      = some (some f) := by
  obtain ⟨lb, hlb, _⟩ := mapBases_some st.citem2cnode cls.bases hbases
  have hok := buildCNode_ok_aux st clsId cls lb hc hnot hlb
  unfold generatedClass
  rw [hok]
  simp only [List.getLast?_concat, Option.map_some']
  have hattr : buildAttr st cls =
      ms.foldl (fun a p => dictSet a p.1 p.2)
        (dictSet (dictSet cls.dict "__module__" (.vstr cnodeModuleName))
          "__doc__" (.vstr (cnodeDocOf cls.name))) := by
    simp [buildAttr, hms]
  rw [hattr]
  rw [dictGet_foldl_nodup ms _ na f hnd hmem]

theorem buildCNode_methods_installed_witness :
    (generatedClass stEx 6).map (fun ncl => dictGet ncl.dict "lvar")
      = some (some (PyVal.vfun 10)) :=
  buildCNode_methods_installed stEx 6
    ⟨"HxCExprVar", [1], [("op", PyVal.vfun 1), ("lvar", PyVal.vfun 2)]⟩
    [("lvar", PyVal.vfun 10), ("lvar_name", PyVal.vfun 11)]
    "lvar" (PyVal.vfun 10)
    (by decide) (by decide) (by decide) (by decide) (by decide) (by decide)
